import Mathlib

/-!
Shallow embedding of `notepad.py`, a Tkinter notepad application.

Modelling conventions:
* The Tk text widget always stores a final artificial newline.  A widget holding
  user-visible buffer `text` answers `get('1.0', 'end')` with `text + "\n"`;
  we call that list of characters the *full data* of the widget.
* Tk indices (`"line.col"` strings, `f"{idx}+{n}c"` arithmetic) are modelled as
  flat character offsets into the full data.
* `text.search(needle, start, stopindex='end')` is a linear forward substring
  search over the full data returning the first match at offset `>= start`.
* `edit_modified()` is the `modified` flag of the state; the `<<Modified>>`
  virtual event is delivered by the event loop before the next user command, so
  a user-level text mutation is modelled as the mutation followed by the bound
  handler `_on_modified`.
* Dialog results (`askyesnocancel`, file pickers, `askinteger`) and the success
  of file writes are inputs of the corresponding operation; file reads are a
  function from path to `Except` mirroring the `try/except` around `open`.
* `text_widget.delete` never removes the widget's protected final newline (Tk
  keeps the content ending in a newline), so deletion ranges are clamped at
  `'end-1c'`; consequently the unbounded `while True` loop of `replace_all`
  can diverge, and it is embedded with an explicit iteration budget (fuel):
  `none` means the loop has not finished within the budget, and a run diverges
  exactly when no finite budget returns `some`.
-/

namespace NotepadModel

/-- Python `s.rstrip('\n')` on a list of characters: drop every trailing
newline character.  Used by `save_file`/`save_as` (`data.rstrip('\n')`). -/
def rstripNl (l : List Char) : List Char :=
  (l.reverse.dropWhile (· == '\n')).reverse

/-- Character comparison used by Tk `search`: exact when `matchCase`,
case-folded when the search is invoked with `nocase=1`. -/
def chEq (matchCase : Bool) (a b : Char) : Bool :=
  if matchCase then a == b else a.toLower == b.toLower

/-- Does `needle` occur at the very start of `hay` (under the given case
sensitivity)? -/
def prefixMatch (matchCase : Bool) : List Char → List Char → Bool
  | [], _ => true
  | _ :: _, [] => false
  | a :: as, b :: bs => chEq matchCase a b && prefixMatch matchCase as bs

/-- First offset (from the start of `hay`) at which `needle` occurs. -/
def findAt (matchCase : Bool) (needle : List Char) : List Char → Option Nat
  | [] => if prefixMatch matchCase needle [] then some 0 else none
  | c :: rest =>
      if prefixMatch matchCase needle (c :: rest) then some 0
      else (findAt matchCase needle rest).map (· + 1)

/-- Tk `text.search(needle, start, stopindex='end')`: first occurrence of
`needle` in `s` at offset `>= start`. -/
def findFrom (matchCase : Bool) (s needle : List Char) (start : Nat) : Option Nat :=
  (findAt matchCase needle (s.drop start)).map (· + start)

/-- In-memory state of the `Notepad` main window: the user-visible buffer
(`self.text` without the artificial final newline Tk appends), the flat offset
of the `insert` mark, `self.filename`, the `edit_modified()` flag, and a ghost
field recording the buffer content at the last successful save or open (used
to state the dirty-flag invariant; it has no counterpart in the code). -/
structure NotepadState where
  text : String
  caret : Nat
  filename : Option String
  modified : Bool
  lastSaved : Option String
  deriving DecidableEq

/-- `get('1.0', tk.END)` as a character list: the buffer plus the artificial
final newline maintained by the Tk text widget. -/
def fullData (st : NotepadState) : List Char :=
  st.text.data ++ ['\n']

/-- Recover the user-visible buffer from full widget content: Tk always keeps
one final newline, so a full content ending in `'\n'` loses that character. -/
def chopNl (l : List Char) : String :=
  ⟨if l.getLast? = some '\n' then l.dropLast else l⟩

/-- `text_widget.delete(i, j)` on full widget content: the Tk text widget
never deletes its protected final newline, so the end of the deleted range is
clamped to `'end-1c'` (offset `length - 1`). -/
def tkDelete (s : List Char) (i j : Nat) : List Char :=
  s.take i ++ s.drop (min j (s.length - 1))

/-- `text_widget.insert(i, t)` on full widget content. -/
def tkInsert (s : List Char) (i : Nat) (t : List Char) : List Char :=
  s.take i ++ t ++ s.drop i

/-- `Notepad._on_modified`: the `<<Modified>>` handler immediately resets the
modified flag (`self.text.edit_modified(False)`) and refreshes the status. -/
def onModified (st : NotepadState) : NotepadState :=
  { st with modified := false }

/-- A user-level text mutation: Tk sets the modified flag and queues
`<<Modified>>`, whose bound handler `_on_modified` runs before the next user
command. -/
def userEdit (st : NotepadState) (newText : String) : NotepadState :=
  onModified { st with text := newText, modified := true }

/-- The bytes `save_file`/`save_as` write for buffer content `buffer`:
`data = self.text.get('1.0', tk.END)` (the buffer plus the artificial final
newline), then `f.write(data.rstrip('\n'))`. -/
def savedData (buffer : String) : String :=
  ⟨rstripNl (buffer.data ++ ['\n'])⟩

/-- Modelled from the spec for comparison: "writes buffer content as UTF-8,
trimming a single trailing newline artifact introduced by the buffer
representation" — exactly one trailing newline is removed from `data`. -/
def savedDataSpec (buffer : String) : String :=
  let data := buffer.data ++ ['\n']
  ⟨if data.getLast? = some '\n' then data.dropLast else data⟩

/-- Result of `messagebox.askyesnocancel` on the unsaved-changes prompt. -/
inductive PromptChoice where
  | yes
  | no
  | cancel
  deriving DecidableEq

/-- `Notepad.save_as`: `saveDialog` is the result of `asksaveasfilename`
(`none` = cancelled), `writeOk` whether the `open`/`write` succeeds.  Returns
the new state and the function's return value. -/
def saveAs (st : NotepadState) (saveDialog : Option String) (writeOk : Bool) :
    NotepadState × Bool :=
  match saveDialog with
  | some file =>
      if writeOk then
        ({ st with filename := some file, modified := false,
                   lastSaved := some st.text }, true)
      else (st, false)
  | none => (st, false)

/-- `Notepad.save_file`: writes to `self.filename` if set, else `save_as`. -/
def saveFile (st : NotepadState) (saveDialog : Option String) (writeOk : Bool) :
    NotepadState × Bool :=
  match st.filename with
  | some _ =>
      if writeOk then
        ({ st with modified := false, lastSaved := some st.text }, true)
      else (st, false)
  | none => saveAs st saveDialog writeOk

/-- `Notepad._maybe_save`: prompt only when `edit_modified()` is set; Yes
attempts a save, No proceeds, Cancel aborts. -/
def maybeSave (st : NotepadState) (choice : PromptChoice)
    (saveDialog : Option String) (writeOk : Bool) : NotepadState × Bool :=
  if st.modified then
    match choice with
    | .yes => saveFile st saveDialog writeOk
    | .no => (st, true)
    | .cancel => (st, false)
  else (st, true)

/-- `Notepad.new_file`: on non-cancel, `delete('1.0', END)` (a mutation, so
`<<Modified>>` fires and its handler clears the flag) and `filename = None`. -/
def newFile (st : NotepadState) (choice : PromptChoice)
    (saveDialog : Option String) (writeOk : Bool) : NotepadState :=
  let r := maybeSave st choice saveDialog writeOk
  if r.2 then
    onModified { r.1 with text := "", caret := 0, modified := true,
                          filename := none }
  else r.1

/-- `Notepad.open_file`: `_maybe_save`, then the file picker (`none` =
cancelled), then `open/read` inside `try`; on a read failure only the error box
is shown, the delete/insert/filename assignment never run.  On success the
insert mark ends up after the inserted data (mark gravity). -/
def openFile (st : NotepadState) (choice : PromptChoice)
    (saveDialog : Option String) (writeOk : Bool)
    (fileDialog : Option String) (readFs : String → Except String String) :
    NotepadState :=
  let r := maybeSave st choice saveDialog writeOk
  if r.2 then
    match fileDialog with
    | none => r.1
    | some f =>
        match readFs f with
        | .ok data =>
            { r.1 with text := data, caret := data.length, filename := some f,
                       modified := false, lastSaved := some data }
        | .error _ => r.1
  else r.1

/-- `Notepad.exit_app`: `root.destroy()` exactly when `_maybe_save` allows it;
the returned Bool records whether the app quit. -/
def exitApp (st : NotepadState) (choice : PromptChoice)
    (saveDialog : Option String) (writeOk : Bool) : NotepadState × Bool :=
  maybeSave st choice saveDialog writeOk

/-- `int(self.text.index('end-1c').split('.')[0])`: the line number of the
widget's final newline, i.e. one more than the newline count of the buffer. -/
def maxLine (st : NotepadState) : Nat :=
  st.text.data.count '\n' + 1

/-- The clamping in `Notepad.goto_line`: `if line < 1: line = 1` and
`if line > max_line: line = max_line`. -/
def clampLine (st : NotepadState) (n : Int) : Nat :=
  if n < 1 then 1
  else if n > (maxLine st : Int) then maxLine st
  else n.toNat

/-- Flat offset of the start of 1-indexed line `line` (Tk index
`f'{line}.0'`) inside full widget content `l`. -/
def lineStartIdx : List Char → Nat → Nat
  | _, 0 => 0
  | _, 1 => 0
  | [], _ => 0
  | c :: rest, n + 2 =>
      1 + (if c == '\n' then lineStartIdx rest (n + 1)
           else lineStartIdx rest (n + 2))

/-- `Notepad.goto_line`: `askinteger` may be cancelled (`none`); otherwise the
entered line is clamped and the insert mark is set to `f'{line}.0'`. -/
def gotoLine (st : NotepadState) (input : Option Int) : NotepadState :=
  match input with
  | none => st
  | some n => { st with caret := lineStartIdx (fullData st) (clampLine st n) }

/-- Observable outcome of a Find/Replace button press: silent return on an
empty needle, the "no (more) matches" message box, or a match at an offset. -/
inductive SearchOut where
  | empty
  | noMatch
  | found (i : Nat)
  deriving DecidableEq

/-- `FindDialog.find_next`: search forward from the `insert` mark to `end`;
on a match, highlight it and move the insert mark just past it. -/
def findNext (st : NotepadState) (needle : String) (matchCase : Bool) :
    NotepadState × SearchOut :=
  if needle = "" then (st, .empty)
  else
    match findFrom matchCase (fullData st) needle.data st.caret with
    | none => (st, .noMatch)
    | some i => ({ st with caret := i + needle.length }, .found i)

/-- `ReplaceDialog.replace_one`: search as in Find from the caret; on a match
delete the matched span, insert the replacement, and put the insert mark just
after the inserted text.  The delete/insert fire `<<Modified>>`, whose handler
clears the modified flag. -/
def replaceOne (st : NotepadState) (needle repl : String) (matchCase : Bool) :
    NotepadState × SearchOut :=
  if needle = "" then (st, .empty)
  else
    match findFrom matchCase (fullData st) needle.data st.caret with
    | none => (st, .noMatch)
    | some i =>
        let newFull := tkInsert (tkDelete (fullData st) i (i + needle.length))
          i repl.data
        ({ st with text := chopNl newFull, caret := i + repl.length,
                   modified := false }, .found i)

/-- The `while True` loop of `ReplaceDialog.replace_all` with an explicit
iteration budget: each iteration searches from offset `p`, deletes the match
(`delete` clamps at the protected final newline), inserts the replacement and
continues from `idx = f'{idx}+{len(repl)}c'`.  `none` means the loop has not
finished within `fuel` iterations; a run of the program diverges (the UI
freezes) exactly when no finite budget returns `some`. -/
def replaceAllLoop (mc : Bool) (needle repl : List Char) :
    Nat → List Char → Nat → Nat → Option (List Char × Nat)
  | 0, _, _, _ => none
  | fuel + 1, s, p, count =>
      match findFrom mc s needle p with
      | none => some (s, count)
      | some i =>
          replaceAllLoop mc needle repl fuel
            (tkInsert (tkDelete s i (i + needle.length)) i repl)
            (i + repl.length) (count + 1)

/-- `ReplaceDialog.replace_all`: empty needle returns before the loop (no
message box).  Otherwise the scan runs from `'1.0'`: `some (st', some c)`
means the loop finished and the message box reported `c` replacements, `none`
that the handler is still inside the loop after `fuel` iterations.  The
deletes/inserts fire `<<Modified>>`, so a nonzero count leaves the modified
flag cleared by the handler; the loop never touches the `insert` mark. -/
def replaceAllOp (st : NotepadState) (needle repl : String) (mc : Bool)
    (fuel : Nat) : Option (NotepadState × Option Nat) :=
  if needle = "" then some (st, none)
  else
    match replaceAllLoop mc needle.data repl.data fuel (fullData st) 0 0 with
    | none => none
    | some (s, c) =>
        some ({ st with text := chopNl s,
                        modified := if c = 0 then st.modified else false },
          some c)

/-- Sample state for the spec's `replace_all` non-overlap example: an untitled
window whose buffer is `"aaaa"`. -/
def aaaaState : NotepadState := ⟨"aaaa", 0, none, false, none⟩

/-- The state reached from a fresh untitled window by opening a file `"f"`
whose content reads as `"x"`. -/
def openedX : NotepadState :=
  openFile ⟨"", 0, none, false, none⟩ PromptChoice.no none true (some "f")
    (fun _ => Except.ok "x")

theorem prefixMatch_length {mc : Bool} :
    ∀ {needle hay : List Char}, prefixMatch mc needle hay = true →
      needle.length ≤ hay.length := by
  intro needle
  induction needle with
  | nil => intro hay _; exact Nat.zero_le _
  | cons a as ih =>
      intro hay h
      cases hay with
      | nil => simp [prefixMatch] at h
      | cons b bs =>
          simp only [prefixMatch, Bool.and_eq_true] at h
          simpa [Nat.succ_le_succ_iff] using ih h.2

theorem findAt_some_matches {mc : Bool} {needle : List Char} :
    ∀ {hay : List Char} {i : Nat}, findAt mc needle hay = some i →
      prefixMatch mc needle (hay.drop i) = true := by
  intro hay
  induction hay with
  | nil =>
      intro i h
      by_cases hp : prefixMatch mc needle [] = true
      · simp [findAt, hp] at h
        subst h; simpa using hp
      · simp [findAt, hp] at h
  | cons c rest ih =>
      intro i h
      by_cases hp : prefixMatch mc needle (c :: rest) = true
      · simp [findAt, hp] at h
        subst h; simpa using hp
      · cases hf : findAt mc needle rest with
        | none => simp [findAt, hp, hf] at h
        | some j =>
            simp [findAt, hp, hf] at h
            subst h
            simpa [List.drop_succ_cons] using ih hf

theorem findAt_eq_none_iff {mc : Bool} {needle : List Char} :
    ∀ {hay : List Char}, findAt mc needle hay = none ↔
      ∀ i, prefixMatch mc needle (hay.drop i) = false := by
  intro hay
  induction hay with
  | nil =>
      by_cases hp : prefixMatch mc needle [] = true
      · simp [findAt, hp]
      · simp [findAt, hp, List.drop_nil, Bool.eq_false_iff.mpr hp]
  | cons c rest ih =>
      by_cases hp : prefixMatch mc needle (c :: rest) = true
      · constructor
        · intro h; simp [findAt, hp] at h
        · intro h; have h0 := h 0; simp [hp] at h0
      · constructor
        · intro h i
          simp [findAt, hp, Option.map_eq_none'] at h
          cases i with
          | zero => simpa using Bool.eq_false_iff.mpr hp
          | succ j => simpa [List.drop_succ_cons] using (ih.mp h) j
        · intro h
          simp [findAt, hp, Option.map_eq_none']
          exact ih.mpr fun j => by simpa [List.drop_succ_cons] using h (j + 1)

theorem findFrom_eq_none_iff {mc : Bool} {s needle : List Char} {p : Nat} :
    findFrom mc s needle p = none ↔
      ∀ i, p ≤ i → prefixMatch mc needle (s.drop i) = false := by
  simp only [findFrom, Option.map_eq_none']
  rw [findAt_eq_none_iff]
  constructor
  · intro h i hpi
    have hi := h (i - p)
    rw [List.drop_drop] at hi
    rwa [Nat.add_sub_cancel' hpi] at hi
  · intro h j
    rw [List.drop_drop]
    simpa [Nat.add_comm] using h (j + p) (Nat.le_add_left _ _)

theorem findFrom_some_ge {mc : Bool} {s needle : List Char} {p i : Nat}
    (h : findFrom mc s needle p = some i) : p ≤ i := by
  simp only [findFrom, Option.map_eq_some'] at h
  obtain ⟨j, _, rfl⟩ := h
  exact Nat.le_add_left _ _

theorem findFrom_some_matches {mc : Bool} {s needle : List Char} {p i : Nat}
    (h : findFrom mc s needle p = some i) :
    prefixMatch mc needle (s.drop i) = true := by
  simp only [findFrom, Option.map_eq_some'] at h
  obtain ⟨j, hj, rfl⟩ := h
  have hm := findAt_some_matches hj
  rw [List.drop_drop] at hm
  rwa [Nat.add_comm] at hm

theorem findFrom_some_fit {mc : Bool} {s : List Char} {n0 : Char}
    {nrest : List Char} {p i : Nat}
    (h : findFrom mc s (n0 :: nrest) p = some i) :
    i + (n0 :: nrest).length ≤ s.length := by
  have hm := findFrom_some_matches h
  have hlen := prefixMatch_length hm
  rw [List.length_drop] at hlen
  have : 1 ≤ (n0 :: nrest).length := by simp
  omega

theorem replaceAllLoop_succ_none {mc : Bool} {needle repl s : List Char}
    {fuel p c : Nat} (h : findFrom mc s needle p = none) :
    replaceAllLoop mc needle repl (fuel + 1) s p c = some (s, c) := by
  simp [replaceAllLoop, h]

theorem replaceAllLoop_succ_some {mc : Bool} {needle repl s : List Char}
    {fuel p c i : Nat} (h : findFrom mc s needle p = some i) :
    replaceAllLoop mc needle repl (fuel + 1) s p c =
      replaceAllLoop mc needle repl fuel
        (tkInsert (tkDelete s i (i + needle.length)) i repl)
        (i + repl.length) (c + 1) := by
  simp [replaceAllLoop, h]

theorem spliceEq (s t : List Char) (i j : Nat) (h : i ≤ s.length) :
    tkInsert (tkDelete s i j) i t
      = s.take i ++ t ++ s.drop (min j (s.length - 1)) := by
  unfold tkInsert tkDelete
  have hlen : (s.take i).length = i := by
    rw [List.length_take]; omega
  rw [List.take_append_of_le_length (le_of_eq hlen.symm)]
  rw [List.drop_append_of_le_length (le_of_eq hlen.symm)]
  rw [List.take_take, Nat.min_self]
  rw [List.drop_eq_nil_of_le (le_of_eq hlen)]
  simp

theorem toLower_eq_newline {c : Char} (h : c.toLower = '\n') : c = '\n' := by
  rw [show c.toLower = if c.toNat ≥ 65 ∧ c.toNat ≤ 90 then
    Char.ofNat (c.toNat + 32) else c from rfl] at h
  split at h
  · exfalso
    rename_i hc
    obtain ⟨h1, h2⟩ := hc
    set n := c.toNat with hn
    interval_cases n <;> exact absurd h (by decide)
  · exact h

theorem chEq_newline {mc : Bool} {c : Char} (h : chEq mc c '\n' = true) :
    c = '\n' := by
  unfold chEq at h
  cases mc with
  | false =>
      simp only [Bool.false_eq_true, if_false] at h
      exact toLower_eq_newline ((eq_of_beq h).trans (by decide))
  | true =>
      simp only [if_true] at h
      exact eq_of_beq h

theorem findAt_single_newline {mc : Bool} {n0 : Char} {nrest : List Char}
    (hnn : n0 :: nrest ≠ ['\n']) :
    findAt mc (n0 :: nrest) ['\n'] = none := by
  have hpm : prefixMatch mc (n0 :: nrest) ['\n'] = false := by
    cases nrest with
    | nil =>
        cases hc : chEq mc n0 '\n'
        · simp [prefixMatch, hc]
        · exfalso
          apply hnn
          rw [chEq_newline hc]
    | cons b bs => simp [prefixMatch]
  have h0 : prefixMatch mc (n0 :: nrest) [] = false := rfl
  simp [findAt, hpm, h0]

theorem eq_concat_of_getLast {l : List Char} {a : Char}
    (h : l.getLast? = some a) : ∃ t, l = t ++ [a] := by
  cases l with
  | nil => simp at h
  | cons c cs =>
      have hne : c :: cs ≠ [] := by simp
      refine ⟨(c :: cs).dropLast, ?_⟩
      have hd := List.dropLast_append_getLast hne
      rw [List.getLast?_eq_getLast _ hne, Option.some.injEq] at h
      rw [h] at hd
      exact hd.symm

theorem replaceAllLoop_newline_spin (t : List Char) :
    ∀ (fuel k count : Nat),
      replaceAllLoop true ['\n'] ['x'] fuel
        (t ++ (List.replicate k 'x' ++ ['\n'])) (t.length + k) count
        = none := by
  intro fuel
  induction fuel with
  | zero => intro k count; rfl
  | succ fuel ih =>
      intro k count
      have hdrop : (t ++ (List.replicate k 'x' ++ ['\n'])).drop (t.length + k)
          = ['\n'] := by
        rw [← List.append_assoc]
        exact List.drop_left' (by rw [List.length_append, List.length_replicate])
      have hfind : findFrom true (t ++ (List.replicate k 'x' ++ ['\n'])) ['\n']
          (t.length + k) = some (t.length + k) := by
        simp [findFrom, hdrop, findAt, prefixMatch, chEq]
      have hlen : (t ++ (List.replicate k 'x' ++ ['\n'])).length
          = t.length + k + 1 := by
        simp only [List.length_append, List.length_replicate,
          List.length_singleton]
        omega
      have hstate : tkInsert (tkDelete (t ++ (List.replicate k 'x' ++ ['\n']))
            (t.length + k) ((t.length + k) + (['\n'] : List Char).length))
            (t.length + k) ['x']
          = t ++ (List.replicate (k + 1) 'x' ++ ['\n']) := by
        have hmin : min ((t.length + k) + (['\n'] : List Char).length)
            ((t ++ (List.replicate k 'x' ++ ['\n'])).length - 1)
            = t.length + k := by
          rw [hlen]
          simp only [List.length_singleton]
          omega
        unfold tkDelete tkInsert
        rw [hmin, List.take_append_drop]
        have htake : (t ++ (List.replicate k 'x' ++ ['\n'])).take (t.length + k)
            = t ++ List.replicate k 'x' := by
          rw [← List.append_assoc]
          exact List.take_left' (by rw [List.length_append, List.length_replicate])
        rw [htake, hdrop, List.replicate_succ']
        simp [List.append_assoc]
      rw [replaceAllLoop_succ_some hfind, hstate]
      exact ih (k + 1) (count + 1)

theorem replaceAllLoop_terminates {mc : Bool} {n0 : Char}
    {nrest repl : List Char} (hnn : n0 :: nrest ≠ ['\n']) :
    ∀ (m : Nat) (s : List Char) (p count : Nat), s.length - p ≤ m →
      s.getLast? = some '\n' →
      ∃ fuel r, replaceAllLoop mc (n0 :: nrest) repl fuel s p count = some r := by
  intro m
  induction m with
  | zero =>
      intro s p count hm hlast
      have hf : findFrom mc s (n0 :: nrest) p = none := by
        rw [findFrom_eq_none_iff]
        intro i hpi
        rw [List.drop_eq_nil_of_le (by omega)]
        rfl
      exact ⟨0 + 1, (s, count), replaceAllLoop_succ_none hf⟩
  | succ m ih =>
      intro s p count hm hlast
      cases hf : findFrom mc s (n0 :: nrest) p with
      | none => exact ⟨0 + 1, (s, count), replaceAllLoop_succ_none hf⟩
      | some i =>
          obtain ⟨t, rfl⟩ := eq_concat_of_getLast hlast
          have hge := findFrom_some_ge hf
          have hfit := findFrom_some_fit hf
          have hN : (n0 :: nrest).length = nrest.length + 1 := by simp
          have hlen : (t ++ ['\n']).length = t.length + 1 := by
            rw [List.length_append]; rfl
          rw [hlen] at hfit hm
          by_cases hend : i + (n0 :: nrest).length ≤ t.length
          · have hi : i ≤ t.length := by omega
            have hmin : min (i + (n0 :: nrest).length) ((t ++ ['\n']).length - 1)
                = i + (n0 :: nrest).length := by
              rw [hlen]; omega
            have hsplice : tkInsert (tkDelete (t ++ ['\n']) i
                  (i + (n0 :: nrest).length)) i repl
                = (t.take i ++ repl ++ t.drop (i + (n0 :: nrest).length))
                    ++ ['\n'] := by
              rw [spliceEq _ _ _ _ (by rw [hlen]; omega), hmin]
              rw [List.take_append_of_le_length hi]
              rw [List.drop_append_of_le_length hend]
              simp [List.append_assoc]
            have hlast2 : ((t.take i ++ repl ++ t.drop (i + (n0 :: nrest).length))
                ++ ['\n']).getLast? = some '\n' := List.getLast?_concat _
            have hmeas : ((t.take i ++ repl ++ t.drop (i + (n0 :: nrest).length))
                ++ ['\n']).length - (i + repl.length) ≤ m := by
              simp only [List.length_append, List.length_take, List.length_drop,
                List.length_singleton]
              omega
            obtain ⟨fuel, r, hr⟩ := ih _ (i + repl.length) (count + 1) hmeas hlast2
            refine ⟨fuel + 1, r, ?_⟩
            rw [replaceAllLoop_succ_some hf, hsplice]
            exact hr
          · have hin : i + (n0 :: nrest).length = t.length + 1 := by omega
            have hi : i ≤ t.length := by omega
            have hmin : min (i + (n0 :: nrest).length) ((t ++ ['\n']).length - 1)
                = t.length := by
              rw [hlen]; omega
            have hsplice : tkInsert (tkDelete (t ++ ['\n']) i
                  (i + (n0 :: nrest).length)) i repl
                = (t.take i ++ repl) ++ ['\n'] := by
              rw [spliceEq _ _ _ _ (by rw [hlen]; omega), hmin]
              rw [List.take_append_of_le_length hi, List.drop_left]
            have hlen2 : (t.take i ++ repl).length = i + repl.length := by
              rw [List.length_append, List.length_take]
              omega
            have hf2 : findFrom mc ((t.take i ++ repl) ++ ['\n']) (n0 :: nrest)
                (i + repl.length) = none := by
              unfold findFrom
              rw [show ((t.take i ++ repl) ++ ['\n']).drop (i + repl.length)
                = ['\n'] from by rw [← hlen2]; exact List.drop_left _ _]
              rw [findAt_single_newline hnn]
              rfl
            refine ⟨0 + 1 + 1, ((t.take i ++ repl) ++ ['\n'], count + 1), ?_⟩
            rw [replaceAllLoop_succ_some hf, hsplice,
              replaceAllLoop_succ_none hf2]

theorem rstripNl_append_newline (l : List Char) :
    rstripNl (l ++ ['\n']) = rstripNl l := by
  unfold rstripNl
  rw [List.reverse_append]
  simp [List.dropWhile_cons]

theorem head?_dropWhile_false (p : Char → Bool) :
    ∀ (xs : List Char) {a : Char}, (xs.dropWhile p).head? = some a →
      p a = false := by
  intro xs
  induction xs with
  | nil => intro a h; simp [List.dropWhile] at h
  | cons c t ih =>
      intro a h
      by_cases hc : p c = true
      · rw [List.dropWhile_cons, if_pos hc] at h
        exact ih h
      · rw [List.dropWhile_cons, if_neg hc] at h
        simp only [List.head?_cons, Option.some.injEq] at h
        subst h
        exact Bool.eq_false_iff.mpr hc

theorem rstripNl_no_trailing (l : List Char) :
    (rstripNl l).getLast? ≠ some '\n' := by
  unfold rstripNl
  rw [List.getLast?_reverse]
  intro h
  have := head?_dropWhile_false (· == '\n') l.reverse h
  simp at this

theorem rstripNl_decomp (l : List Char) :
    ∃ k, l = rstripNl l ++ List.replicate k '\n' := by
  refine ⟨(l.reverse.takeWhile (· == '\n')).length, ?_⟩
  have h1 : l = (l.reverse.dropWhile (· == '\n')).reverse ++
      (l.reverse.takeWhile (· == '\n')).reverse := by
    rw [← List.reverse_append, List.takeWhile_append_dropWhile,
      List.reverse_reverse]
  have h2 : l.reverse.takeWhile (· == '\n') =
      List.replicate (l.reverse.takeWhile (· == '\n')).length '\n' := by
    apply List.eq_replicate_of_mem
    intro b hb
    have := List.mem_takeWhile_imp hb
    simpa using this
  rw [rstripNl]
  conv_lhs => rw [h1]
  rw [h2, List.reverse_replicate, List.length_replicate]

theorem rstripNl_of_no_trailing {l : List Char} (h : l.getLast? ≠ some '\n') :
    rstripNl l = l := by
  unfold rstripNl
  cases hr : l.reverse with
  | nil =>
      have hl : l = [] := by
        rw [← List.reverse_reverse l, hr]
        rfl
      simp [hl]
  | cons a t =>
      have ha : l.getLast? = some a := by
        rw [← List.head?_reverse, hr, List.head?_cons]
      have hne : (a == '\n') = false := by
        cases hb : (a == '\n')
        · rfl
        · have hae : a = '\n' := eq_of_beq hb
          subst hae
          exact absurd ha h
      rw [List.dropWhile_cons]
      rw [if_neg (by simp [hne])]
      rw [← hr]
      exact List.reverse_reverse l

theorem lineStartIdx_one (l : List Char) : lineStartIdx l 1 = 0 := by
  cases l <;> rfl

theorem lineStartIdx_lt : ∀ (l : List Char) (k : Nat), 1 ≤ k →
    k ≤ l.count '\n' → lineStartIdx l k < l.length := by
  intro l
  induction l with
  | nil => intro k h1 h2; simp at h2; omega
  | cons c rest ih =>
      intro k h1 h2
      match k with
      | 1 => simp [lineStartIdx]
      | n + 2 =>
          by_cases hc : (c == '\n') = true
          · have hcount : (c :: rest).count '\n' = rest.count '\n' + 1 := by
              simp [List.count_cons, hc]
            have hstep : lineStartIdx (c :: rest) (n + 2) =
                1 + lineStartIdx rest (n + 1) := by
              simp [lineStartIdx, hc]
            have hr := ih (n + 1) (by omega) (by omega)
            rw [hstep, List.length_cons]
            omega
          · have hcount : (c :: rest).count '\n' = rest.count '\n' := by
              simp [List.count_cons, hc]
            have hstep : lineStartIdx (c :: rest) (n + 2) =
                1 + lineStartIdx rest (n + 2) := by
              simp [lineStartIdx, hc]
            have hr := ih (n + 2) (by omega) (by omega)
            rw [hstep, List.length_cons]
            omega

theorem lineStartIdx_col0 : ∀ (l : List Char) (k : Nat), 2 ≤ k →
    k ≤ l.count '\n' + 1 →
    ∃ j, lineStartIdx l k = j + 1 ∧ l.get? j = some '\n' := by
  intro l
  induction l with
  | nil => intro k h1 h2; simp at h2; omega
  | cons c rest ih =>
      intro k h1 h2
      match k with
      | n + 2 =>
          by_cases hc : (c == '\n') = true
          · have hcount : (c :: rest).count '\n' = rest.count '\n' + 1 := by
              simp [List.count_cons, hc]
            cases n with
            | zero =>
                refine ⟨0, ?_, ?_⟩
                · simp [lineStartIdx, hc, lineStartIdx_one]
                · simpa using eq_of_beq hc
            | succ m =>
                obtain ⟨j, hj, hg⟩ := ih (m + 2) (by omega) (by omega)
                have hstep : lineStartIdx (c :: rest) (m + 1 + 2) =
                    1 + lineStartIdx rest (m + 2) := by
                  simp [lineStartIdx, hc]
                refine ⟨j + 1, ?_, ?_⟩
                · rw [hstep, hj]
                  omega
                · simpa using hg
          · have hcount : (c :: rest).count '\n' = rest.count '\n' := by
              simp [List.count_cons, hc]
            obtain ⟨j, hj, hg⟩ := ih (n + 2) (by omega) (by omega)
            have hstep : lineStartIdx (c :: rest) (n + 2) =
                1 + lineStartIdx rest (n + 2) := by
              simp [lineStartIdx, hc]
            refine ⟨j + 1, ?_, ?_⟩
            · rw [hstep, hj]
              omega
            · simpa using hg

/-- Claim C1.  The claimed dirty-flag invariant fails on the code: open a file
with content `"x"` (dirty flag cleared, ghost `lastSaved = "x"`), then mutate
the buffer to `"xy"`.  Tk sets the modified flag, but the bound `<<Modified>>`
handler `_on_modified` immediately resets `edit_modified(False)`, so the flag
reads false although the buffer differs from the last save — and `_maybe_save`
consequently proceeds without showing any unsaved-changes prompt. -/
theorem dirty_flag_lost_on_edit :
    openedX.modified = false
    ∧ openedX.lastSaved = some "x"
    ∧ (userEdit openedX "xy").text = "xy"
    ∧ (userEdit openedX "xy").lastSaved = some "x"
    ∧ (userEdit openedX "xy").text ≠ "x"
    ∧ (userEdit openedX "xy").modified = false
    ∧ maybeSave (userEdit openedX "xy") PromptChoice.cancel none true
        = (userEdit openedX "xy", true) := by
  decide

/-- Claim C2, counterexample.  For buffer `"a\n"`, `save_file` writes
`("a\n" + "\n").rstrip('\n') = "a"`, while the spec's single-trailing-newline
trim would write `"a\n"`: a buffer ending in newlines loses all of them, not
just the artifact. -/
theorem save_trim_counterexample :
    savedData "a\n" = "a"
    ∧ savedDataSpec "a\n" = "a\n"
    ∧ savedData "a\n" ≠ savedDataSpec "a\n" := by
  decide

/-- Claim C2, amended.  `save`/`save_as` write the buffer as UTF-8 with ALL
trailing newlines removed (the buffer-representation artifact plus any
user-typed trailing newlines); no other characters are altered: the written
bytes are a prefix of the buffer whose complement is a run of newlines, and
the written bytes never end in a newline. -/
theorem save_strips_all_trailing_newlines :
    ∀ buffer : String,
      savedData buffer = ⟨rstripNl buffer.data⟩
      ∧ (∃ k, buffer.data = (savedData buffer).data ++ List.replicate k '\n')
      ∧ (savedData buffer).data.getLast? ≠ some '\n' := by
  intro buffer
  have heq : savedData buffer = ⟨rstripNl buffer.data⟩ := by
    unfold savedData
    rw [rstripNl_append_newline]
  refine ⟨heq, ?_, ?_⟩
  · rw [heq]
    exact rstripNl_decomp buffer.data
  · rw [heq]
    exact rstripNl_no_trailing buffer.data

/-- Claim C3.  Save-then-open round-trip: if the buffer does not end in a
newline, the bytes written by `save_file` equal the buffer, and opening a file
that reads back those bytes restores exactly that buffer (path adopted, dirty
flag clear, caret after the inserted data). -/
theorem save_open_roundtrip :
    ∀ (st : NotepadState) (choice : PromptChoice) (sdlg : Option String)
      (wok : Bool) (f : String),
      st.text.data.getLast? ≠ some '\n' → st.modified = false →
      savedData st.text = st.text
      ∧ openFile st choice sdlg wok (some f)
          (fun _ => Except.ok (savedData st.text))
        = { st with caret := st.text.length, filename := some f,
                    lastSaved := some st.text } := by
  intro st choice sdlg wok f hnl hmod
  have hsd : savedData st.text = st.text := by
    unfold savedData
    rw [rstripNl_append_newline, rstripNl_of_no_trailing hnl]
  refine ⟨hsd, ?_⟩
  simp [openFile, maybeSave, hmod, hsd]

theorem save_open_roundtrip_witness :
    ("hi" : String).data.getLast? ≠ some '\n'
    ∧ (⟨"hi", 1, some "old", false, none⟩ : NotepadState).modified = false
    ∧ savedData "hi" = "hi"
    ∧ openFile ⟨"hi", 1, some "old", false, none⟩ PromptChoice.no none true
        (some "p") (fun _ => Except.ok (savedData "hi"))
      = ⟨"hi", 2, some "p", false, some "hi"⟩ := by
  refine ⟨by decide, by decide, ?_, ?_⟩
  · exact (save_open_roundtrip ⟨"hi", 1, some "old", false, none⟩
      PromptChoice.no none true "p" (by decide) (by decide)).1
  · exact (save_open_roundtrip ⟨"hi", 1, some "old", false, none⟩
      PromptChoice.no none true "p" (by decide) (by decide)).2

/-- Claim C5.  Choosing Cancel on the unsaved-changes prompt makes
`_maybe_save` return `False`, so `new_file`, `open_file` and `exit_app` all
abort with the state (buffer, caret, path, dirty flag) exactly as before and
the window not destroyed. -/
theorem cancel_aborts_action :
    ∀ (st : NotepadState) (sdlg : Option String) (wok : Bool)
      (fdlg : Option String) (readFs : String → Except String String),
      st.modified = true →
      newFile st PromptChoice.cancel sdlg wok = st
      ∧ openFile st PromptChoice.cancel sdlg wok fdlg readFs = st
      ∧ exitApp st PromptChoice.cancel sdlg wok = (st, false) := by
  intro st sdlg wok fdlg readFs hmod
  refine ⟨?_, ?_, ?_⟩ <;> simp [newFile, openFile, exitApp, maybeSave, hmod]

theorem cancel_aborts_action_witness :
    (⟨"a", 1, some "f", true, none⟩ : NotepadState).modified = true
    ∧ newFile ⟨"a", 1, some "f", true, none⟩ PromptChoice.cancel none true
        = ⟨"a", 1, some "f", true, none⟩
    ∧ openFile ⟨"a", 1, some "f", true, none⟩ PromptChoice.cancel none true
        (some "g") (fun _ => Except.ok "z") = ⟨"a", 1, some "f", true, none⟩
    ∧ exitApp ⟨"a", 1, some "f", true, none⟩ PromptChoice.cancel none true
        = (⟨"a", 1, some "f", true, none⟩, false) := by
  refine ⟨by decide, ?_, ?_, ?_⟩
  · exact (cancel_aborts_action ⟨"a", 1, some "f", true, none⟩ none true
      (some "g") (fun _ => Except.ok "z") (by decide)).1
  · exact (cancel_aborts_action ⟨"a", 1, some "f", true, none⟩ none true
      (some "g") (fun _ => Except.ok "z") (by decide)).2.1
  · exact (cancel_aborts_action ⟨"a", 1, some "f", true, none⟩ none true
      (some "g") (fun _ => Except.ok "z") (by decide)).2.2

/-- Claim C6.  When the read of the picked file fails (the `open/read` raises:
missing file, permission error, decode error), `open_file` only shows the
error box: buffer, path, caret, dirty flag and ghost save state are exactly as
before. -/
theorem open_failure_leaves_state :
    ∀ (st : NotepadState) (choice : PromptChoice) (sdlg : Option String)
      (wok : Bool) (f : String) (readFs : String → Except String String)
      (e : String),
      st.modified = false → readFs f = Except.error e →
      openFile st choice sdlg wok (some f) readFs = st := by
  intro st choice sdlg wok f readFs e hmod hread
  simp [openFile, maybeSave, hmod, hread]

theorem open_failure_leaves_state_witness :
    (⟨"keep", 2, some "old", false, some "keep"⟩ : NotepadState).modified = false
    ∧ (fun _ : String => (Except.error "boom" : Except String String)) "f"
        = Except.error "boom"
    ∧ openFile ⟨"keep", 2, some "old", false, some "keep"⟩ PromptChoice.no none
        true (some "f") (fun _ => Except.error "boom")
      = ⟨"keep", 2, some "old", false, some "keep"⟩ := by
  refine ⟨by decide, rfl, ?_⟩
  exact open_failure_leaves_state ⟨"keep", 2, some "old", false, some "keep"⟩
    PromptChoice.no none true "f" (fun _ => Except.error "boom") "boom"
    (by decide) rfl

/-- Claim C9, counterexample.  `replace_all` with an empty needle returns
before the loop, so no `Replace All` message box is shown at all: it does not
report a count of zero. -/
theorem empty_needle_report_counterexample :
    (∀ fuel : Nat, replaceAllOp ⟨"abc", 0, none, false, none⟩ "" "x" true fuel
        = some (⟨"abc", 0, none, false, none⟩, none))
    ∧ replaceAllOp ⟨"abc", 0, none, false, none⟩ "" "x" true 0
        ≠ some (⟨"abc", 0, none, false, none⟩, some 0) := by
  exact ⟨fun _ => rfl, by decide⟩

/-- Claim C9, amended.  An empty needle is a silent no-op for `find_next`,
`replace_one` and `replace_all`: buffer, caret and the whole state are
unchanged, and no message (in particular no zero count) is reported. -/
theorem empty_needle_noop :
    ∀ (st : NotepadState) (repl : String) (mc : Bool) (fuel : Nat),
      findNext st "" mc = (st, SearchOut.empty)
      ∧ replaceOne st "" repl mc = (st, SearchOut.empty)
      ∧ replaceAllOp st "" repl mc fuel = some (st, none) := by
  intro st repl mc fuel
  refine ⟨?_, ?_, ?_⟩ <;> simp [findNext, replaceOne, replaceAllOp]

/-- Claim C10.  Cancelling the `asksaveasfilename` dialog makes `save_as`
return `False` with nothing written and the state untouched; consequently
answering Save on the unsaved-changes prompt of an untitled dirty document and
then cancelling the path dialog aborts the triggering `new`/`open`/`exit`. -/
theorem save_as_cancel_aborts :
    ∀ (st : NotepadState) (wok : Bool) (fdlg : Option String)
      (readFs : String → Except String String),
      saveAs st none wok = (st, false)
      ∧ (st.modified = true → st.filename = none →
          newFile st PromptChoice.yes none wok = st
          ∧ openFile st PromptChoice.yes none wok fdlg readFs = st
          ∧ exitApp st PromptChoice.yes none wok = (st, false)) := by
  intro st wok fdlg readFs
  constructor
  · rfl
  · intro hmod hfn
    refine ⟨?_, ?_, ?_⟩ <;>
      simp [newFile, openFile, exitApp, maybeSave, saveFile, saveAs, hmod, hfn]

theorem save_as_cancel_aborts_witness :
    saveAs ⟨"d", 0, none, true, none⟩ none true
      = (⟨"d", 0, none, true, none⟩, false)
    ∧ (⟨"d", 0, none, true, none⟩ : NotepadState).modified = true
    ∧ (⟨"d", 0, none, true, none⟩ : NotepadState).filename = none
    ∧ newFile ⟨"d", 0, none, true, none⟩ PromptChoice.yes none true
        = ⟨"d", 0, none, true, none⟩
    ∧ openFile ⟨"d", 0, none, true, none⟩ PromptChoice.yes none true (some "g")
        (fun _ => Except.ok "z") = ⟨"d", 0, none, true, none⟩
    ∧ exitApp ⟨"d", 0, none, true, none⟩ PromptChoice.yes none true
        = (⟨"d", 0, none, true, none⟩, false) := by
  refine ⟨?_, by decide, by decide, ?_, ?_, ?_⟩
  · exact (save_as_cancel_aborts ⟨"d", 0, none, true, none⟩ true (some "g")
      (fun _ => Except.ok "z")).1
  · exact ((save_as_cancel_aborts ⟨"d", 0, none, true, none⟩ true (some "g")
      (fun _ => Except.ok "z")).2 (by decide) (by decide)).1
  · exact ((save_as_cancel_aborts ⟨"d", 0, none, true, none⟩ true (some "g")
      (fun _ => Except.ok "z")).2 (by decide) (by decide)).2.1
  · exact ((save_as_cancel_aborts ⟨"d", 0, none, true, none⟩ true (some "g")
      (fun _ => Except.ok "z")).2 (by decide) (by decide)).2.2

/-- Claim C4, counterexample.  `replace_all` does NOT terminate for every
needle/replacement pair: with needle `"\n"` and replacement `"x"` on buffer
`"a"`, `search` keeps matching the widget's protected final newline, which
`delete` can never remove, so each iteration inserts another `x` before it and
resumes exactly on it — no iteration budget ever finishes the loop, and
`replace_all` never reports. -/
theorem replace_all_newline_never_terminates :
    (∀ fuel : Nat,
      replaceAllLoop true ("\n" : String).data ("x" : String).data fuel
        (fullData ⟨"a", 0, none, false, none⟩) 0 0 = none)
    ∧ (∀ fuel : Nat,
        replaceAllOp ⟨"a", 0, none, false, none⟩ "\n" "x" true fuel = none)
    ∧ replaceAllOp ⟨"a", 0, none, false, none⟩ "\n" "x" true 100 = none := by
  have hloop : ∀ fuel : Nat,
      replaceAllLoop true ['\n'] ['x'] fuel "a\n".data 0 0 = none := by
    intro fuel
    cases fuel with
    | zero => rfl
    | succ fuel =>
        rw [replaceAllLoop_succ_some
          (show findFrom true "a\n".data ['\n'] 0 = some 1 from by decide)]
        rw [show tkInsert (tkDelete ("a\n".data) 1
            (1 + (['\n'] : List Char).length)) 1 ['x']
          = ['a'] ++ (List.replicate 1 'x' ++ ['\n']) from by decide]
        exact replaceAllLoop_newline_spin ['a'] fuel 1 (0 + 1)
  have hop : ∀ fuel : Nat,
      replaceAllOp ⟨"a", 0, none, false, none⟩ "\n" "x" true fuel = none := by
    intro fuel
    unfold replaceAllOp
    rw [if_neg (by decide : ¬("\n" : String) = "")]
    rw [show ("\n" : String).data = ['\n'] from rfl,
      show ("x" : String).data = ['x'] from rfl,
      show fullData ⟨"a", 0, none, false, none⟩ = "a\n".data from by decide]
    rw [hloop fuel]
  exact ⟨fun fuel => hloop fuel, hop, hop 100⟩

/-- Claim C4, amended.  `replace_all` is a single left-to-right
non-overlapping pass in which each replacement's end becomes the next search's
start; for every nonempty needle other than the single newline `"\n"` (which
keeps re-matching the widget's protected final newline) the loop terminates —
some iteration budget returns — and the total count is reported, even when the
replacement contains the needle; in particular replacing `"aa"` by `"aaa"` in
buffer `"aaaa"` terminates with buffer `"aaaaaa"` and reports exactly 2
replacements. -/
theorem replace_all_nonoverlapping :
    (∀ (st : NotepadState) (needle repl : String) (mc : Bool),
      needle ≠ "" → needle ≠ "\n" →
      ∃ fuel st' c, replaceAllOp st needle repl mc fuel = some (st', some c))
    ∧ replaceAllOp aaaaState "aa" "aaa" true 3
        = some (⟨"aaaaaa", 0, none, false, none⟩, some 2) := by
  constructor
  · intro st needle repl mc hne hnn
    cases hd : needle.data with
    | nil =>
        exfalso
        apply hne
        cases needle with
        | mk l =>
            simp only [String.data] at hd
            rw [hd]
    | cons n0 nrest =>
        have hnn2 : n0 :: nrest ≠ ['\n'] := by
          intro h
          apply hnn
          cases needle with
          | mk l =>
              simp only [String.data] at hd
              rw [hd, h]
        have hlast : (fullData st).getLast? = some '\n' :=
          List.getLast?_concat _
        obtain ⟨fuel, ⟨s2, c⟩, hr⟩ := @replaceAllLoop_terminates mc n0 nrest
          repl.data hnn2 (fullData st).length (fullData st) 0 0
          (by omega) hlast
        have hop : replaceAllOp st needle repl mc fuel
            = some ({ st with
                        text := chopNl s2,
                        modified := if c = 0 then st.modified else false },
                some c) := by
          unfold replaceAllOp
          rw [if_neg hne, hd, hr]
        exact ⟨fuel, _, c, hop⟩
  · decide

theorem replace_all_nonoverlapping_witness :
    (("ab" : String) ≠ "") ∧ (("ab" : String) ≠ "\n")
    ∧ ∃ fuel st' c, replaceAllOp ⟨"xaby", 0, none, false, none⟩ "ab" "Z" true
        fuel = some (st', some c) := by
  refine ⟨by decide, by decide, ?_⟩
  exact replace_all_nonoverlapping.1 ⟨"xaby", 0, none, false, none⟩ "ab" "Z"
    true (by decide) (by decide)

/-- Claim C7.  `find_next` searches only forward: a reported match offset is
never before the caret, and the state then moves the caret just past the
match.  If every occurrence of a nonempty needle lies strictly before the
caret, the search wraps nowhere, the "No more matches found" box is shown, and
caret and buffer are unchanged. -/
theorem find_next_forward_only :
    (∀ (st : NotepadState) (needle : String) (mc : Bool), needle ≠ "" →
      (∀ i, i < (fullData st).length →
        prefixMatch mc needle.data ((fullData st).drop i) = true →
        i < st.caret) →
      findNext st needle mc = (st, SearchOut.noMatch))
    ∧ (∀ (st : NotepadState) (needle : String) (mc : Bool)
        (st' : NotepadState) (i : Nat),
        findNext st needle mc = (st', SearchOut.found i) →
        st.caret ≤ i ∧ st' = { st with caret := i + needle.length }) := by
  constructor
  · intro st needle mc hne hall
    have hnd : needle.data ≠ [] := by
      intro hd
      apply hne
      cases needle
      simp_all
    have hnone : findFrom mc (fullData st) needle.data st.caret = none := by
      rw [findFrom_eq_none_iff]
      intro i hci
      by_cases hlen : i < (fullData st).length
      · cases hb : prefixMatch mc needle.data ((fullData st).drop i)
        · rfl
        · exact absurd (hall i hlen hb) (Nat.not_lt.mpr hci)
      · rw [List.drop_eq_nil_of_le (Nat.le_of_not_lt hlen)]
        cases hd : needle.data with
        | nil => exact absurd hd hnd
        | cons a as => rfl
    simp [findNext, hne, hnone]
  · intro st needle mc st' i h
    by_cases hne : needle = ""
    · simp [findNext, hne] at h
    · cases hf : findFrom mc (fullData st) needle.data st.caret with
      | none => simp [findNext, hne, hf] at h
      | some j =>
          simp only [findNext, hne, if_neg, if_false, hf] at h
          have hj := findFrom_some_ge hf
          simp only [Prod.mk.injEq] at h
          obtain ⟨hst, hfnd⟩ := h
          have hji : j = i := by
            cases hfnd
            rfl
          subst hji
          exact ⟨hj, hst.symm⟩

theorem find_next_forward_only_witness :
    (("ab" : String) ≠ "")
    ∧ (∀ i, i < (fullData ⟨"abab", 4, none, false, none⟩).length →
        prefixMatch true ("ab" : String).data
          ((fullData ⟨"abab", 4, none, false, none⟩).drop i) = true →
        i < (⟨"abab", 4, none, false, none⟩ : NotepadState).caret)
    ∧ findNext ⟨"abab", 4, none, false, none⟩ "ab" true
        = (⟨"abab", 4, none, false, none⟩, SearchOut.noMatch) := by
  refine ⟨by decide, by decide, ?_⟩
  exact find_next_forward_only.1 ⟨"abab", 4, none, false, none⟩ "ab" true
    (by decide) (by decide)

/-- Claim C8.  `goto_line` clamps the entered integer to `[1, max_line]`
(0 or any negative number lands on line 1, any number past the last line
lands on the last line), then puts the caret at column 0 of that line: the
caret offset stays within the buffer and sits either at the very start of the
document or immediately after a newline. -/
theorem goto_line_clamps :
    ∀ (st : NotepadState) (n : Int),
      (1 ≤ clampLine st n ∧ clampLine st n ≤ maxLine st)
      ∧ gotoLine st (some n)
          = { st with caret := lineStartIdx (fullData st) (clampLine st n) }
      ∧ (gotoLine st (some n)).caret ≤ st.text.length
      ∧ ((gotoLine st (some n)).caret = 0 ∨
          (fullData st).get? ((gotoLine st (some n)).caret - 1) = some '\n')
      ∧ clampLine st 0 = 1
      ∧ (∀ k : Nat, clampLine st ((maxLine st : Int) + (k : Int) + 1)
          = maxLine st) := by
  intro st n
  have hml : 1 ≤ maxLine st := by
    simp [maxLine]
  have hbounds : 1 ≤ clampLine st n ∧ clampLine st n ≤ maxLine st := by
    unfold clampLine
    split_ifs <;> omega
  have hcount : (fullData st).count '\n' = maxLine st := by
    simp [fullData, maxLine, List.count_append]
  have hlen : (fullData st).length = st.text.length + 1 := by
    show (st.text.data ++ ['\n']).length = st.text.length + 1
    rw [List.length_append]
    rfl
  refine ⟨hbounds, rfl, ?_, ?_, ?_, ?_⟩
  · show lineStartIdx (fullData st) (clampLine st n) ≤ st.text.length
    have := lineStartIdx_lt (fullData st) (clampLine st n) hbounds.1
      (by rw [hcount]; exact hbounds.2)
    omega
  · by_cases h1 : clampLine st n = 1
    · left
      show lineStartIdx (fullData st) (clampLine st n) = 0
      rw [h1, lineStartIdx_one]
    · right
      obtain ⟨j, hj, hg⟩ := lineStartIdx_col0 (fullData st) (clampLine st n)
        (by omega) (by rw [hcount]; omega)
      show (fullData st).get?
        (lineStartIdx (fullData st) (clampLine st n) - 1) = some '\n'
      rw [hj]
      simpa using hg
  · simp [clampLine]
  · intro k
    unfold clampLine
    split_ifs <;> omega

end NotepadModel
